import Mathlib

/-!
Verification development for the contour-generation web worker of gspnet-web.

The worker (a single JavaScript module) implements a pure pipeline
  blur -> elevation range / level planning -> marching-squares line tracing
  -> endpoint merging -> Douglas-Peucker simplification -> Chaikin smoothing
over a rectangular elevation grid.  This file gives a shallow embedding of that
module and proves / refutes the specification claims about it.

Modelling conventions:
* JavaScript numbers are modelled by the exact rationals.  A grid sample is
  an Option value: none models the JavaScript null (and, where the code
  treats them identically, non-finite) "no data" marker.
* The JavaScript Set of visited edge keys (strings of the shape
  "side:row:col") is modelled by a list of structured keys; string key
  equality corresponds to structured key equality because the encoding is
  injective.
* Euclidean distances in the source are Math.sqrt of a sum of squares and
  are used only in comparisons; the embedding keeps the squared value and
  compares it through sqrtLeB / sqrtGtB, which encode exactly
  "sqrt s <= t" and "sqrt s > t" for the nonnegative radicand s.
-/

set_option maxHeartbeats 1600000

namespace GspContour

/-- Scalar elevation sample of the grid: some q is a finite elevation value,
none models the JavaScript null or non-finite "no data" marker (the worker
guards every numeric use of a sample with "val !== null && isFinite(val)"
or skips cells containing such samples). -/
abbrev Elev := Option ℚ

/-- Elevation grid, row-major, as handed to the worker: grid[r][c]. -/
abbrev Grid := List (List Elev)

/-- Reading grid[r][c]. Out-of-range reads give the no-data marker. -/
def gridGet (g : Grid) (r c : ℕ) : Elev := (g.getD r []).getD c none

/-- Planar point [x, y], in grid or world coordinates. -/
abbrev Point := ℚ × ℚ

/-- Polyline: ordered list of points. -/
abbrev Line := List Point

/-- Squared Euclidean distance. The source computes
distance(p1,p2) = Math.sqrt(dx*dx + dy*dy); this is its radicand. -/
def distanceSq (p q : Point) : ℚ := (p.1 - q.1) ^ 2 + (p.2 - q.2) ^ 2

/-- Encodes "Math.sqrt s <= t" for a nonnegative radicand s:
true iff 0 <= t and s <= t^2. -/
def sqrtLeB (s t : ℚ) : Bool := decide (0 ≤ t) && decide (s ≤ t ^ 2)

/-- Encodes "Math.sqrt s > t" for a nonnegative radicand s:
true iff t < 0 or t^2 < s. -/
def sqrtGtB (s t : ℚ) : Bool := decide (t < 0) || decide (t ^ 2 < s)

/-! ### Gaussian blur (blurGrid) -/

/-- Kernel weight kernel[kr+1][kc+1] of the source's 3x3 Gaussian kernel
[[1/16, 2/16, 1/16], [2/16, 4/16, 2/16], [1/16, 2/16, 1/16]],
indexed here directly by the offsets kr, kc running over -1, 0, 1. -/
def kernelW : ℤ → ℤ → ℚ := fun kr kc =>
  if kr = 0 ∧ kc = 0 then 4 / 16
  else if kr = 0 ∨ kc = 0 then 2 / 16
  else 1 / 16

/-- The nine kernel offsets (kr, kc), in the row-major order of the source's
nested loops for kr, kc in -1..1. -/
def blurOffsets : List (ℤ × ℤ) :=
  [(-1, -1), (-1, 0), (-1, 1), (0, -1), (0, 0), (0, 1), (1, -1), (1, 0), (1, 1)]

/-- Value contributed by offset kk when blurring cell (r, c): the sample at
(r + kr, c + kc) if that position is inside the declared bounds and the sample
is valid, otherwise nothing (the source checks the bounds and then
"val !== null && isFinite(val)"). -/
def offsetVal (g : Grid) (w h r c : ℕ) (kk : ℤ × ℤ) : Option ℚ :=
  let nr : ℤ := (r : ℤ) + kk.1
  let nc : ℤ := (c : ℤ) + kk.2
  if 0 ≤ nr ∧ nr < (h : ℤ) ∧ 0 ≤ nc ∧ nc < (w : ℤ) then
    gridGet g nr.toNat nc.toNat
  else none

/-- One step of the source's accumulation
"sum += val * weight; weightSum += weight" (acc = (sum, weightSum)). -/
def blurStep (g : Grid) (w h r c : ℕ) (acc : ℚ × ℚ) (kk : ℤ × ℤ) : ℚ × ℚ :=
  match offsetVal g w h r c kk with
  | some val => (acc.1 + val * kernelW kk.1 kk.2, acc.2 + kernelW kk.1 kk.2)
  | none => acc

/-- The pair (sum, weightSum) accumulated by blurGrid's inner double loop
at cell (r, c). -/
def blurAccum (g : Grid) (w h r c : ℕ) : ℚ × ℚ :=
  blurOffsets.foldl (blurStep g w h r c) (0, 0)

/-- The valid samples of the 3x3 neighborhood that contribute to the blurred
value of cell (r, c), in loop order. -/
def nbhdVals (g : Grid) (w h r c : ℕ) : List ℚ :=
  blurOffsets.filterMap (offsetVal g w h r c)

/-- Blurred value of cell (r, c): no-data passes through unchanged; otherwise
the kernel-weighted average renormalized by the contributing weights, with the
source's fallback to the unfiltered center value when weightSum is 0. -/
def blurCell (g : Grid) (w h r c : ℕ) : Elev :=
  match gridGet g r c with
  | none => none
  | some centerVal =>
      let acc := blurAccum g w h r c
      if 0 < acc.2 then some (acc.1 / acc.2) else some centerVal

/-- blurGrid: builds the fresh blurred grid of declared dimensions. -/
def blurGrid (g : Grid) (w h : ℕ) : Grid :=
  (List.range h).map fun r => (List.range w).map fun c => blurCell g w h r c

/-- Step 1 of generateContours: "let processedGrid = grid;
for (let i = 0; i < blurPasses; i++) processedGrid = blurGrid(...)". -/
def applyBlurPasses (w h : ℕ) : ℕ → Grid → Grid
  | 0, g => g
  | n + 1, g => applyBlurPasses w h n (blurGrid g w h)

theorem kernelW_nonneg (kr kc : ℤ) : 0 ≤ kernelW kr kc := by
  unfold kernelW
  split_ifs <;> norm_num

theorem blurStep_weight_mono (g : Grid) (w h r c : ℕ) (acc : ℚ × ℚ) (kk : ℤ × ℤ) :
    acc.2 ≤ (blurStep g w h r c acc kk).2 := by
  unfold blurStep
  cases offsetVal g w h r c kk with
  | none => exact le_refl _
  | some v =>
      simpa using add_le_add_left (kernelW_nonneg kk.1 kk.2) acc.2

theorem foldl_blurStep_weight_mono (g : Grid) (w h r c : ℕ) :
    ∀ (l : List (ℤ × ℤ)) (acc : ℚ × ℚ),
      acc.2 ≤ (l.foldl (blurStep g w h r c) acc).2 := by
  intro l
  induction l with
  | nil => intro acc; exact le_refl _
  | cons kk t ih =>
      intro acc
      exact le_trans (blurStep_weight_mono g w h r c acc kk) (ih _)

theorem offsetVal_center (g : Grid) (w h r c : ℕ) (hr : r < h) (hc : c < w) :
    offsetVal g w h r c (0, 0) = gridGet g r c := by
  unfold offsetVal
  have hcond : (0 : ℤ) ≤ (r : ℤ) + (0, 0).1 ∧ (r : ℤ) + (0, 0).1 < (h : ℤ) ∧
      (0 : ℤ) ≤ (c : ℤ) + (0, 0).2 ∧ (c : ℤ) + (0, 0).2 < (w : ℤ) := by
    refine ⟨by omega, by omega, by omega, by omega⟩
  rw [if_pos hcond]
  norm_num

/-- Key shared fact: when the center sample is valid and in bounds, the
accumulated weight sum is at least the center's own kernel weight 4/16. -/
theorem blurAccum_weight_ge (g : Grid) (w h r c : ℕ) (v : ℚ)
    (hr : r < h) (hc : c < w) (hv : gridGet g r c = some v) :
    4 / 16 ≤ (blurAccum g w h r c).2 := by
  have hsplit : blurOffsets =
      [((-1 : ℤ), (-1 : ℤ)), (-1, 0), (-1, 1), (0, -1)] ++ (0, 0) ::
        [((0 : ℤ), (1 : ℤ)), (1, -1), (1, 0), (1, 1)] := by rfl
  unfold blurAccum
  rw [hsplit, List.foldl_append, List.foldl_cons]
  set acc4 := List.foldl (blurStep g w h r c) (0, 0)
      [((-1 : ℤ), (-1 : ℤ)), (-1, 0), (-1, 1), (0, -1)] with hacc4
  have hw4 : (0 : ℚ) ≤ acc4.2 := by
    have := foldl_blurStep_weight_mono g w h r c
      [((-1 : ℤ), (-1 : ℤ)), (-1, 0), (-1, 1), (0, -1)] (0, 0)
    simpa [← hacc4] using this
  have hstep : (blurStep g w h r c acc4 (0, 0)).2 = acc4.2 + 4 / 16 := by
    unfold blurStep
    rw [offsetVal_center g w h r c hr hc, hv]
    simp [kernelW]
  calc 4 / 16 ≤ acc4.2 + 4 / 16 := by linarith
    _ = (blurStep g w h r c acc4 (0, 0)).2 := hstep.symm
    _ ≤ _ := foldl_blurStep_weight_mono g w h r c _ _

theorem foldl_blurStep_upper (g : Grid) (w h r c : ℕ) (M : ℚ) :
    ∀ (l : List (ℤ × ℤ)) (acc : ℚ × ℚ),
      (∀ x ∈ l.filterMap (offsetVal g w h r c), x ≤ M) →
      acc.1 ≤ M * acc.2 →
      (l.foldl (blurStep g w h r c) acc).1 ≤ M * (l.foldl (blurStep g w h r c) acc).2 := by
  intro l
  induction l with
  | nil => intro acc _ hacc; exact hacc
  | cons kk t ih =>
      intro acc hmem hacc
      rw [List.foldl_cons]
      apply ih
      · intro x hx
        apply hmem
        rw [List.filterMap_cons]
        cases offsetVal g w h r c kk <;> simp [hx]
      · unfold blurStep
        cases hov : offsetVal g w h r c kk with
        | none => exact hacc
        | some v =>
            have hvM : v ≤ M := by
              apply hmem
              rw [List.filterMap_cons, hov]
              exact List.mem_cons_self _ _
            have hk := kernelW_nonneg kk.1 kk.2
            simp only
            nlinarith

theorem foldl_blurStep_lower (g : Grid) (w h r c : ℕ) (m : ℚ) :
    ∀ (l : List (ℤ × ℤ)) (acc : ℚ × ℚ),
      (∀ x ∈ l.filterMap (offsetVal g w h r c), m ≤ x) →
      m * acc.2 ≤ acc.1 →
      m * (l.foldl (blurStep g w h r c) acc).2 ≤ (l.foldl (blurStep g w h r c) acc).1 := by
  intro l
  induction l with
  | nil => intro acc _ hacc; exact hacc
  | cons kk t ih =>
      intro acc hmem hacc
      rw [List.foldl_cons]
      apply ih
      · intro x hx
        apply hmem
        rw [List.filterMap_cons]
        cases offsetVal g w h r c kk <;> simp [hx]
      · unfold blurStep
        cases hov : offsetVal g w h r c kk with
        | none => exact hacc
        | some v =>
            have hvM : m ≤ v := by
              apply hmem
              rw [List.filterMap_cons, hov]
              exact List.mem_cons_self _ _
            have hk := kernelW_nonneg kk.1 kk.2
            simp only
            nlinarith

/-- C8: Gaussian smoothing with zero passes is the identity transform:
running the blur stage of generateContours with blurPasses = 0 leaves the
grid equal to the input grid element-wise (it is the same grid). -/
theorem applyBlurPasses_zero_id (w h : ℕ) (g : Grid) :
    applyBlurPasses w h 0 g = g := rfl

/-- C10: for every cell whose center value is valid, the weight sum
accumulated by blurGrid is at least the center's kernel weight 4/16 (hence
strictly positive), so the division sum / weightSum is well defined and the
fallback branch returning the unfiltered center value is not taken: the
blurred cell is exactly some (sum / weightSum). -/
theorem blurGrid_weightSum_pos (g : Grid) (w h r c : ℕ) (v : ℚ)
    (hr : r < h) (hc : c < w) (hv : gridGet g r c = some v) :
    4 / 16 ≤ (blurAccum g w h r c).2 ∧
      blurCell g w h r c = some ((blurAccum g w h r c).1 / (blurAccum g w h r c).2) := by
  have hge := blurAccum_weight_ge g w h r c v hr hc hv
  refine ⟨hge, ?_⟩
  unfold blurCell
  rw [hv]
  have hpos : 0 < (blurAccum g w h r c).2 := by linarith
  simp [hpos]

/-- Witness for C10 at a concrete one-cell grid. -/
theorem blurGrid_weightSum_pos_witness :
    4 / 16 ≤ (blurAccum [[some 1]] 1 1 0 0).2 ∧
      blurCell [[some 1]] 1 1 0 0 =
        some ((blurAccum [[some 1]] 1 1 0 0).1 / (blurAccum [[some 1]] 1 1 0 0).2) :=
  blurGrid_weightSum_pos [[some 1]] 1 1 0 0 1 (by decide) (by decide) (by decide)

/-- C9: for every grid cell whose value is valid, one pass of blurGrid
produces the renormalized kernel-weighted average of the valid samples in
the cell's 3x3 neighborhood, and that value lies between any lower bound and
any upper bound of those neighborhood samples - in particular between their
minimum and maximum, so smoothing never overshoots the local data range. -/
theorem blurGrid_between_bounds (g : Grid) (w h r c : ℕ) (v m M : ℚ)
    (hr : r < h) (hc : c < w) (hv : gridGet g r c = some v)
    (hM : ∀ x ∈ nbhdVals g w h r c, x ≤ M)
    (hm : ∀ x ∈ nbhdVals g w h r c, m ≤ x) :
    ∃ u, blurCell g w h r c = some u ∧ m ≤ u ∧ u ≤ M := by
  have hge := blurAccum_weight_ge g w h r c v hr hc hv
  have hpos : 0 < (blurAccum g w h r c).2 := by linarith
  refine ⟨(blurAccum g w h r c).1 / (blurAccum g w h r c).2, ?_, ?_, ?_⟩
  · exact (blurGrid_weightSum_pos g w h r c v hr hc hv).2
  · rw [le_div_iff₀ hpos]
    exact foldl_blurStep_lower g w h r c m blurOffsets (0, 0) hm (by norm_num)
  · rw [div_le_iff₀ hpos]
    exact foldl_blurStep_upper g w h r c M blurOffsets (0, 0) hM (by norm_num)

/-- Witness for C9 at a concrete one-cell grid. -/
theorem blurGrid_between_bounds_witness :
    ∃ u, blurCell [[some 1]] 1 1 0 0 = some u ∧ 1 ≤ u ∧ u ≤ 1 :=
  blurGrid_between_bounds [[some 1]] 1 1 0 0 1 1 1 (by decide) (by decide) (by decide)
    (by decide) (by decide)

/-! ### Contour line tracing (traceContoursAtLevel / traceContourFromEdge) -/

/-- Side of a cell: Top, Right, Bottom or Left, as in the source's edge
naming. -/
inductive EdgeSide
  | T | R | B | L
deriving DecidableEq, Inhabited, Repr

/-- Structured form of the source's string edge key "side:row:col". The string
encoding is injective, so string equality in the JavaScript Set corresponds to
equality of these triples. -/
abbrev EdgeKey := EdgeSide × ℕ × ℕ

/-- Canonical name of the physical grid edge denoted by a key: the top edge of
cell (r, c) is the bottom edge of cell (r-1, c), and the left edge of
cell (r, c) is the right edge of cell (r, c-1).  Two keys denote the same
physical edge iff their canonical forms agree. -/
def canonEdge : EdgeKey → Bool × ℕ × ℕ
  | (.T, r, c) => (false, r, c)
  | (.B, r, c) => (false, r + 1, c)
  | (.L, r, c) => (true, r, c)
  | (.R, r, c) => (true, r, c + 1)

/-- The four corner samples a, b, c, d (top-left, top-right, bottom-right,
bottom-left) of cell (row, col), available only when all four are valid
(the source skips / stops on cells with a null corner). -/
def cellCorners (g : Grid) (row col : ℕ) : Option (ℚ × ℚ × ℚ × ℚ) :=
  match gridGet g row col, gridGet g row (col + 1),
      gridGet g (row + 1) (col + 1), gridGet g (row + 1) col with
  | some a, some b, some cc, some d => some (a, b, cc, d)
  | _, _, _, _ => none

/-- Whether a cell edge is crossed by the iso-line: its two endpoint corners
classify differently against the iso-value ( (x >= iso) !== (y >= iso) ). -/
def hasCrossing (iso a b c d : ℚ) : EdgeSide → Bool
  | .T => decide (iso ≤ a) != decide (iso ≤ b)
  | .R => decide (iso ≤ b) != decide (iso ≤ c)
  | .B => decide (iso ≤ d) != decide (iso ≤ c)
  | .L => decide (iso ≤ a) != decide (iso ≤ d)

/-- Crossing point on an edge of cell (row, col), by linear interpolation
t = (iso - v0) / (v1 - v0) along the edge, exactly as in the source. -/
def crossingPoint (iso : ℚ) (row col : ℕ) (a b c d : ℚ) : EdgeSide → Option Point
  | .T => if hasCrossing iso a b c d .T then
      some ((col : ℚ) + (iso - a) / (b - a), (row : ℚ)) else none
  | .R => if hasCrossing iso a b c d .R then
      some ((col : ℚ) + 1, (row : ℚ) + (iso - b) / (c - b)) else none
  | .B => if hasCrossing iso a b c d .B then
      some ((col : ℚ) + (iso - d) / (c - d), (row : ℚ) + 1) else none
  | .L => if hasCrossing iso a b c d .L then
      some ((col : ℚ), (row : ℚ) + (iso - a) / (d - a)) else none

/-- The candidate exit edges: the crossing edges of the cell other than the
entry edge, in the fixed enumeration order T, R, B, L (the insertion order of
the crossings object, filtered by e !== entryEdge). -/
def exitCandidates (iso a b c d : ℚ) (entry : EdgeSide) : List EdgeSide :=
  [EdgeSide.T, EdgeSide.R, EdgeSide.B, EdgeSide.L].filter
    fun s => (s != entry) && hasCrossing iso a b c d s

/-- The source's exit-edge choice: the first candidate by default; with more
than one candidate (saddle), the first when center >= isoValue and the last
otherwise. -/
def chooseExit (cands : List EdgeSide) (center iso : ℚ) : Option EdgeSide :=
  match cands with
  | [] => none
  | [e] => some e
  | e :: es => some (if iso ≤ center then e else es.getLastD e)

/-- Moving through an exit edge: the (row, col) of the adjacent cell (as
integers, the source allows -1 before its bounds check) and the entry edge of
that cell. -/
def nextOf : EdgeSide → ℕ → ℕ → ℤ × ℤ × EdgeSide
  | .T, row, col => ((row : ℤ) - 1, (col : ℤ), .B)
  | .R, row, col => ((row : ℤ), (col : ℤ) + 1, .L)
  | .B, row, col => ((row : ℤ) + 1, (col : ℤ), .T)
  | .L, row, col => ((row : ℤ), (col : ℤ) - 1, .R)

/-- The source's bounds check on the next cell:
not (nextRow < 0 or nextRow >= height-1 or nextCol < 0 or nextCol >= width-1). -/
def nextValid (w h : ℕ) (n : ℤ × ℤ × EdgeSide) : Prop :=
  0 ≤ n.1 ∧ n.1 < (h : ℤ) - 1 ∧ 0 ≤ n.2.1 ∧ n.2.1 < (w : ℤ) - 1

instance (w h : ℕ) (n : ℤ × ℤ × EdgeSide) : Decidable (nextValid w h n) :=
  inferInstanceAs (Decidable (0 ≤ n.1 ∧ n.1 < (h : ℤ) - 1 ∧ 0 ≤ n.2.1 ∧ n.2.1 < (w : ℤ) - 1))

/-- The equivalent key of the same physical edge from the adjacent cell's
perspective, when that adjacent cell is inside the traced cell range (the
exact condition under which the source marks the corresponding entry edge of
the next cell). -/
def mateKey (w h : ℕ) (e : EdgeKey) : Option EdgeKey :=
  let n := nextOf e.1 e.2.1 e.2.2
  if nextValid w h n then some (n.2.2, n.1.toNat, n.2.1.toNat) else none

/-- Result of one call of traceContourFromEdge: the collected polyline, the
exit edge keys the call consumed (marked at "visited.add(edgeKey)"), the
final visited set and the number of loop iterations executed. -/
structure TraceRes where
  line : List Point
  exitsTaken : List EdgeKey
  visited : List EdgeKey
  iters : ℕ

/-- The while-loop of traceContourFromEdge.  The fuel is the remaining
iteration budget maxIterations - iterations of the source; the loop body runs
only while the budget is positive.  State per iteration: current cell
(row, col), entry edge, and the shared visited set. -/
def traceLoop (g : Grid) (w h : ℕ) (iso : ℚ) :
    ℕ → ℕ → ℕ → EdgeSide → List EdgeKey → TraceRes
  | 0, _, _, _, visited => ⟨[], [], visited, 0⟩
  | fuel + 1, row, col, entry, visited =>
    match cellCorners g row col with
    | none => ⟨[], [], visited, 1⟩
    | some (a, b, c, d) =>
      match chooseExit (exitCandidates iso a b c d entry) ((a + b + c + d) / 4) iso with
      | none => ⟨[], [], visited, 1⟩
      | some exitE =>
        let ln := (crossingPoint iso row col a b c d exitE).toList
        let k : EdgeKey := (exitE, row, col)
        if k ∈ visited then ⟨ln, [], visited, 1⟩
        else
          let n := nextOf exitE row col
          if nextValid w h n then
            let nk : EdgeKey := (n.2.2, n.1.toNat, n.2.1.toNat)
            let res := traceLoop g w h iso fuel n.1.toNat n.2.1.toNat n.2.2 (nk :: k :: visited)
            ⟨ln ++ res.line, k :: res.exitsTaken, res.visited, res.iters + 1⟩
          else ⟨ln, [k], k :: visited, 1⟩

/-- traceContourFromEdge: runs the tracing loop with the source's iteration
budget maxIterations = width * height * 2, starting from the side named by
the start edge key. -/
def traceContourFromEdge (g : Grid) (w h : ℕ) (iso : ℚ) (startRow startCol : ℕ)
    (startEdgeKey : EdgeKey) (visited : List EdgeKey) : TraceRes :=
  traceLoop g w h iso (w * h * 2) startRow startCol startEdgeKey.1 visited

/-- The 4-bit cell case: bit i set when the i-th corner (a, b, c, d) is >= the
iso-value. -/
def cellCaseOf (iso a b c d : ℚ) : ℕ :=
  (if iso ≤ a then 1 else 0) ||| (if iso ≤ b then 2 else 0) |||
    (if iso ≤ c then 4 else 0) ||| (if iso ≤ d then 8 else 0)

/-- getEdgeKeys: the keys of the crossing edges of cell (row, col) derived
from the case bits, pushed in the order T, R, B, L. -/
def getEdgeKeys (row col : ℕ) (cellCase : ℕ) : List EdgeKey :=
  let hasTop := ((cellCase &&& 1) != 0) != ((cellCase &&& 2) != 0)
  let hasRight := ((cellCase &&& 2) != 0) != ((cellCase &&& 4) != 0)
  let hasBottom := ((cellCase &&& 4) != 0) != ((cellCase &&& 8) != 0)
  let hasLeft := ((cellCase &&& 1) != 0) != ((cellCase &&& 8) != 0)
  (if hasTop then [(EdgeSide.T, row, col)] else []) ++
    (if hasRight then [(EdgeSide.R, row, col)] else []) ++
      (if hasBottom then [(EdgeSide.B, row, col)] else []) ++
        (if hasLeft then [(EdgeSide.L, row, col)] else [])

/-- Accumulated state of the scan of traceContoursAtLevel: every trace
performed so far (line plus the exit keys it consumed) and the shared
visited set.  The source keeps only the lines of length >= 2; the full trace
list is kept here so that the visited-edge bookkeeping can be stated. -/
structure ScanRes where
  traces : List (List Point × List EdgeKey)
  visited : List EdgeKey

/-- Inner loop of traceContoursAtLevel over the edge keys of one cell:
skip already-visited keys, otherwise trace a line from the key. -/
def scanEdgeKeys (g : Grid) (w h : ℕ) (iso : ℚ) (row col : ℕ) :
    List EdgeKey → ScanRes → ScanRes
  | [], s => s
  | k :: ks, s =>
    if k ∈ s.visited then scanEdgeKeys g w h iso row col ks s
    else
      let r := traceContourFromEdge g w h iso row col k s.visited
      scanEdgeKeys g w h iso row col ks ⟨s.traces ++ [(r.line, r.exitsTaken)], r.visited⟩

/-- Body of the per-cell scan: classify the cell and start traces from its
unvisited crossing edges (cells with a null corner or with trivial case
0 / 15 are skipped). -/
def scanCell (g : Grid) (w h : ℕ) (iso : ℚ) (row col : ℕ) (s : ScanRes) : ScanRes :=
  match cellCorners g row col with
  | none => s
  | some (a, b, c, d) =>
    let cc := cellCaseOf iso a b c d
    if cc = 0 ∨ cc = 15 then s
    else scanEdgeKeys g w h iso row col (getEdgeKeys row col cc) s

/-- Column loop of the cell scan. -/
def scanCols (g : Grid) (w h : ℕ) (iso : ℚ) (row : ℕ) : List ℕ → ScanRes → ScanRes
  | [], s => s
  | c :: cs, s => scanCols g w h iso row cs (scanCell g w h iso row c s)

/-- Row loop of the cell scan. -/
def scanRows (g : Grid) (w h : ℕ) (iso : ℚ) : List ℕ → ScanRes → ScanRes
  | [], s => s
  | r :: rs, s => scanRows g w h iso rs (scanCols g w h iso r (List.range (w - 1)) s)

/-- The full scan of traceContoursAtLevel over the (height-1) x (width-1)
cells, returning every trace together with the final visited set. -/
def traceContoursAtLevelAux (g : Grid) (w h : ℕ) (iso : ℚ) : ScanRes :=
  scanRows g w h iso (List.range (h - 1)) ⟨[], []⟩

/-- traceContoursAtLevel: the traced polylines of one level, keeping (in
discovery order) exactly the lines with at least 2 points. -/
def traceContoursAtLevel (g : Grid) (w h : ℕ) (iso : ℚ) : List (List Point) :=
  ((traceContoursAtLevelAux g w h iso).traces.map Prod.fst).filter
    fun l => 2 ≤ l.length

/-- C2: the saddle tie-break.  Whenever a traced cell offers exactly two
candidate exit edges after excluding the entry edge, the exit chosen by the
trace step is the first candidate when the cell's center value
(a + b + c + d) / 4 is >= the iso-value and the last candidate otherwise;
the policy is a fixed function of the cell, hence the same for every saddle
encountered. -/
theorem saddle_tie_break (iso a b c d : ℚ) (entry e1 e2 : EdgeSide)
    (hsaddle : exitCandidates iso a b c d entry = [e1, e2]) :
    chooseExit (exitCandidates iso a b c d entry) ((a + b + c + d) / 4) iso =
      some (if iso ≤ (a + b + c + d) / 4 then e1 else e2) := by
  rw [hsaddle]
  simp [chooseExit, List.getLastD]

/-- Witness for C2: a concrete two-candidate cell (corners 0, 10, 10, 0
entered through its right edge at iso-value 5). -/
theorem saddle_tie_break_witness :
    exitCandidates 5 0 10 10 0 EdgeSide.R = [EdgeSide.T, EdgeSide.B] ∧
      chooseExit (exitCandidates 5 0 10 10 0 EdgeSide.R) ((0 + 10 + 10 + 0) / 4) 5 =
        some (if (5 : ℚ) ≤ (0 + 10 + 10 + 0) / 4 then EdgeSide.T else EdgeSide.B) :=
  ⟨by decide, saddle_tie_break 5 0 10 10 0 EdgeSide.R EdgeSide.T EdgeSide.B (by decide)⟩

theorem traceLoop_iters_le (g : Grid) (w h : ℕ) (iso : ℚ) :
    ∀ (fuel row col : ℕ) (entry : EdgeSide) (visited : List EdgeKey),
      (traceLoop g w h iso fuel row col entry visited).iters ≤ fuel := by
  intro fuel
  induction fuel with
  | zero => intro row col entry visited; simp [traceLoop]
  | succ n ih =>
      intro row col entry visited
      unfold traceLoop
      split
      · exact Nat.succ_le_succ (Nat.zero_le n)
      · split
        · exact Nat.succ_le_succ (Nat.zero_le n)
        · dsimp only
          split
          · exact Nat.succ_le_succ (Nat.zero_le n)
          · split
            · exact Nat.succ_le_succ (ih _ _ _ _)
            · exact Nat.succ_le_succ (Nat.zero_le n)

/-- C5: the hard iteration cap.  For every grid, iso-value, starting edge and
prior visited set, a single line trace executes at most
2 x width x height loop iterations before stopping; in particular
traceContourFromEdge is total, also on inputs that would otherwise cycle. -/
theorem traceContourFromEdge_iterations_le (g : Grid) (w h : ℕ) (iso : ℚ)
    (startRow startCol : ℕ) (startEdgeKey : EdgeKey) (visited : List EdgeKey) :
    (traceContourFromEdge g w h iso startRow startCol startEdgeKey visited).iters ≤
      2 * (w * h) := by
  have := traceLoop_iters_le g w h iso (w * h * 2) startRow startCol startEdgeKey.1 visited
  unfold traceContourFromEdge
  omega

/-! ### C1: no edge is traced twice at a level -/

/-- Key resolution lemma: if two distinct keys name the same physical edge and
the second key's cell lies in the traced cell range, then the second key is
exactly the mate the tracer marks for the first. -/
theorem canon_eq_resolve (w h : ℕ) (e e' : EdgeKey)
    (hcan : canonEdge e = canonEdge e') (hne : e ≠ e')
    (hr' : e'.2.1 < h - 1) (hc' : e'.2.2 < w - 1) :
    mateKey w h e = some e' := by
  rcases e with ⟨s, r, c⟩
  rcases e' with ⟨s', r', c'⟩
  simp only at hr' hc'
  cases s <;> cases s' <;> simp [canonEdge, Prod.mk.injEq] at hcan
  case T.T =>
    exact absurd (by simp [hcan.1, hcan.2]) hne
  case T.B =>
    obtain ⟨h1, h2⟩ := hcan
    simp only [mateKey, nextOf]
    rw [if_pos (show nextValid w h ((r : ℤ) - 1, (c : ℤ), EdgeSide.B) from by
      simp only [nextValid]; omega)]
    simp only [Option.some.injEq, Prod.mk.injEq, eq_self_iff_true, true_and]
    omega
  case B.T =>
    obtain ⟨h1, h2⟩ := hcan
    simp only [mateKey, nextOf]
    rw [if_pos (show nextValid w h ((r : ℤ) + 1, (c : ℤ), EdgeSide.T) from by
      simp only [nextValid]; omega)]
    simp only [Option.some.injEq, Prod.mk.injEq, eq_self_iff_true, true_and]
    omega
  case B.B =>
    obtain ⟨h1, h2⟩ := hcan
    have h1' : r = r' := by omega
    exact absurd (by simp [h1', h2]) hne
  case L.L =>
    exact absurd (by simp [hcan.1, hcan.2]) hne
  case L.R =>
    obtain ⟨h1, h2⟩ := hcan
    simp only [mateKey, nextOf]
    rw [if_pos (show nextValid w h ((r : ℤ), (c : ℤ) - 1, EdgeSide.R) from by
      simp only [nextValid]; omega)]
    simp only [Option.some.injEq, Prod.mk.injEq, eq_self_iff_true, true_and]
    omega
  case R.L =>
    obtain ⟨h1, h2⟩ := hcan
    simp only [mateKey, nextOf]
    rw [if_pos (show nextValid w h ((r : ℤ), (c : ℤ) + 1, EdgeSide.L) from by
      simp only [nextValid]; omega)]
    simp only [Option.some.injEq, Prod.mk.injEq, eq_self_iff_true, true_and]
    omega
  case R.R =>
    obtain ⟨h1, h2⟩ := hcan
    have h2' : c = c' := by omega
    exact absurd (by simp [h1, h2']) hne

/-- Master invariant of the tracing loop: the visited set only grows; every
exit edge the loop consumes lies in the traced cell range, was unvisited when
consumed, and ends up marked under its own key and - whenever the adjacent
cell sharing the edge is in range - under the mate key as well; and no two
exits consumed by the same call denote the same physical edge. -/
theorem traceLoop_spec (g : Grid) (w h : ℕ) (iso : ℚ) :
    ∀ (fuel row col : ℕ) (entry : EdgeSide) (visited : List EdgeKey) (res : TraceRes),
      res = traceLoop g w h iso fuel row col entry visited →
      row < h - 1 → col < w - 1 →
      (∀ x ∈ visited, x ∈ res.visited) ∧
      (∀ e ∈ res.exitsTaken,
          (e.2.1 < h - 1 ∧ e.2.2 < w - 1) ∧ e ∉ visited ∧ e ∈ res.visited ∧
            ∀ m, mateKey w h e = some m → m ∈ res.visited) ∧
      (res.exitsTaken.map canonEdge).Nodup := by
  intro fuel
  induction fuel with
  | zero =>
      intro row col entry visited res hres hr hc
      subst hres
      exact ⟨fun x hx => hx, fun e he => absurd he (List.not_mem_nil e), List.nodup_nil⟩
  | succ n ih =>
      intro row col entry visited res hres hr hc
      unfold traceLoop at hres
      split at hres
      · subst hres
        exact ⟨fun x hx => hx, fun e he => absurd he (List.not_mem_nil e), List.nodup_nil⟩
      · rename_i a b c d hcc
        split at hres
        · subst hres
          exact ⟨fun x hx => hx, fun e he => absurd he (List.not_mem_nil e), List.nodup_nil⟩
        · rename_i exitE hce
          dsimp only at hres
          split at hres
          · subst hres
            exact ⟨fun x hx => hx, fun e he => absurd he (List.not_mem_nil e), List.nodup_nil⟩
          · rename_i hkv
            split at hres
            · rename_i hval
              obtain ⟨hv1, hv2, hv3, hv4⟩ := hval
              have hr2 : (nextOf exitE row col).1.toNat < h - 1 := by omega
              have hc2 : (nextOf exitE row col).2.1.toNat < w - 1 := by omega
              have hmk : mateKey w h ((exitE, row, col) : EdgeKey) =
                  some (((nextOf exitE row col).2.2, (nextOf exitE row col).1.toNat,
                    (nextOf exitE row col).2.1.toNat) : EdgeKey) := by
                simp only [mateKey]
                rw [if_pos ⟨hv1, hv2, hv3, hv4⟩]
              subst hres
              obtain ⟨ihA, ihB, ihC⟩ := ih (nextOf exitE row col).1.toNat
                (nextOf exitE row col).2.1.toNat (nextOf exitE row col).2.2
                ((((nextOf exitE row col).2.2, (nextOf exitE row col).1.toNat,
                  (nextOf exitE row col).2.1.toNat) : EdgeKey) ::
                    ((exitE, row, col) : EdgeKey) :: visited)
                _ rfl hr2 hc2
              refine ⟨?_, ?_, ?_⟩
              · intro x hx
                exact ihA x (List.mem_cons_of_mem _ (List.mem_cons_of_mem _ hx))
              · intro e he
                rcases List.mem_cons.mp he with rfl | he'
                · refine ⟨⟨hr, hc⟩, hkv,
                    ihA _ (List.mem_cons_of_mem _ (List.mem_cons_self _ _)), ?_⟩
                  intro m hm
                  rw [hmk] at hm
                  obtain rfl := (Option.some.inj hm)
                  exact ihA _ (List.mem_cons_self _ _)
                · obtain ⟨hrange, hfresh, hvis, hmate⟩ := ihB e he'
                  refine ⟨hrange, ?_, hvis, hmate⟩
                  intro hev
                  exact hfresh (List.mem_cons_of_mem _ (List.mem_cons_of_mem _ hev))
              · rw [List.map_cons]
                refine List.nodup_cons.mpr ⟨?_, ihC⟩
                intro hmem
                rw [List.mem_map] at hmem
                obtain ⟨e', he', hce'⟩ := hmem
                obtain ⟨⟨hre', hce2⟩, hfresh, _, _⟩ := ihB e' he'
                have hne : ((exitE, row, col) : EdgeKey) ≠ e' := by
                  intro heq
                  exact hfresh (heq ▸ List.mem_cons_of_mem _ (List.mem_cons_self _ _))
                have hresv := canon_eq_resolve w h ((exitE, row, col) : EdgeKey) e'
                  hce'.symm hne hre' hce2
                rw [hmk] at hresv
                obtain rfl := (Option.some.inj hresv)
                exact hfresh (List.mem_cons_self _ _)
            · rename_i hval
              have hmk0 : mateKey w h ((exitE, row, col) : EdgeKey) = none := by
                simp only [mateKey]
                rw [if_neg hval]
              subst hres
              refine ⟨?_, ?_, ?_⟩
              · intro x hx
                exact List.mem_cons_of_mem _ hx
              · intro e he
                rcases List.mem_cons.mp he with rfl | he'
                · refine ⟨⟨hr, hc⟩, hkv, List.mem_cons_self _ _, ?_⟩
                  intro m hm
                  rw [hmk0] at hm
                  exact absurd hm (by simp)
                · exact absurd he' (List.not_mem_nil e)
              · simp

/-- Invariant carried by the scan of traceContoursAtLevel: every exit yet
consumed was recorded in the visited set under its own key and under the mate
key of the adjacent in-range cell, and no two consumed exits (within a trace
or across traces) name the same physical edge. -/
def ScanInv (w h : ℕ) (s : ScanRes) : Prop :=
  (∀ t ∈ s.traces, ∀ e ∈ t.2,
      (e.2.1 < h - 1 ∧ e.2.2 < w - 1) ∧ e ∈ s.visited ∧
        ∀ m, mateKey w h e = some m → m ∈ s.visited) ∧
  ((s.traces.map Prod.snd).flatten.map canonEdge).Nodup

theorem scanEdgeKeys_inv (g : Grid) (w h : ℕ) (iso : ℚ) (row col : ℕ)
    (hr : row < h - 1) (hc : col < w - 1) :
    ∀ (ks : List EdgeKey) (s : ScanRes), ScanInv w h s →
      ScanInv w h (scanEdgeKeys g w h iso row col ks s) ∧
      (∀ x ∈ s.visited, x ∈ (scanEdgeKeys g w h iso row col ks s).visited) := by
  intro ks
  induction ks with
  | nil => intro s hs; exact ⟨hs, fun x hx => hx⟩
  | cons k ks ih =>
      intro s hs
      by_cases hkv : k ∈ s.visited
      · rw [show scanEdgeKeys g w h iso row col (k :: ks) s =
            scanEdgeKeys g w h iso row col ks s from by
          simp [scanEdgeKeys, hkv]]
        exact ih s hs
      · obtain ⟨tA, tB, tC⟩ := traceLoop_spec g w h iso (w * h * 2) row col k.1 s.visited
          (traceContourFromEdge g w h iso row col k s.visited) rfl hr hc
        have hstep : scanEdgeKeys g w h iso row col (k :: ks) s =
            scanEdgeKeys g w h iso row col ks
              ⟨s.traces ++ [((traceContourFromEdge g w h iso row col k s.visited).line,
                (traceContourFromEdge g w h iso row col k s.visited).exitsTaken)],
                (traceContourFromEdge g w h iso row col k s.visited).visited⟩ := by
          rw [scanEdgeKeys]
          rw [if_neg hkv]
        rw [hstep]
        have hs' : ScanInv w h
            ⟨s.traces ++ [((traceContourFromEdge g w h iso row col k s.visited).line,
              (traceContourFromEdge g w h iso row col k s.visited).exitsTaken)],
              (traceContourFromEdge g w h iso row col k s.visited).visited⟩ := by
          obtain ⟨hsA, hsC⟩ := hs
          constructor
          · intro t ht e he
            rcases List.mem_append.mp ht with htl | htr
            · obtain ⟨hrange, hvis, hmate⟩ := hsA t htl e he
              exact ⟨hrange, tA e hvis, fun m hm => tA m (hmate m hm)⟩
            · have hteq : t = ((traceContourFromEdge g w h iso row col k s.visited).line,
                  (traceContourFromEdge g w h iso row col k s.visited).exitsTaken) := by
                simpa using htr
              rw [hteq] at he
              obtain ⟨hrange, hfresh, hvis, hmate⟩ := tB e he
              exact ⟨hrange, hvis, hmate⟩
          · simp only [List.map_append, List.flatten_append, List.map_cons, List.map_nil,
              List.flatten_cons, List.flatten_nil, List.append_nil]
            rw [List.nodup_append]
            refine ⟨hsC, tC, ?_⟩
            intro x hxold hxnew
            rw [List.mem_map] at hxold hxnew
            obtain ⟨eo, heo, hxo⟩ := hxold
            obtain ⟨en, hen, hxn⟩ := hxnew
            rw [List.mem_flatten] at heo
            obtain ⟨lo, hlo, helo⟩ := heo
            rw [List.mem_map] at hlo
            obtain ⟨t, ht, hlt⟩ := hlo
            obtain ⟨hrange_o, hvis_o, hmate_o⟩ := hsA t ht eo (hlt ▸ helo)
            obtain ⟨⟨hrn, hcn⟩, hfresh_n, _, _⟩ := tB en hen
            have hne : eo ≠ en := by
              intro heq
              exact hfresh_n (heq ▸ hvis_o)
            have hcan : canonEdge eo = canonEdge en := by rw [hxo, hxn]
            have := canon_eq_resolve w h eo en hcan hne hrn hcn
            exact hfresh_n (hmate_o en this)
        obtain ⟨ih1, ih2⟩ := ih _ hs'
        exact ⟨ih1, fun x hx => ih2 x (tA x hx)⟩

theorem scanCell_inv (g : Grid) (w h : ℕ) (iso : ℚ) (row col : ℕ)
    (hr : row < h - 1) (hc : col < w - 1) (s : ScanRes) (hs : ScanInv w h s) :
    ScanInv w h (scanCell g w h iso row col s) := by
  unfold scanCell
  split
  · exact hs
  · dsimp only
    split
    · exact hs
    · exact (scanEdgeKeys_inv g w h iso row col hr hc _ s hs).1

theorem scanCols_inv (g : Grid) (w h : ℕ) (iso : ℚ) (row : ℕ) (hr : row < h - 1) :
    ∀ (cs : List ℕ), (∀ x ∈ cs, x < w - 1) → ∀ s, ScanInv w h s →
      ScanInv w h (scanCols g w h iso row cs s) := by
  intro cs
  induction cs with
  | nil => intro _ s hs; exact hs
  | cons c cs ih =>
      intro hcs s hs
      rw [scanCols]
      exact ih (fun x hx => hcs x (List.mem_cons_of_mem _ hx)) _
        (scanCell_inv g w h iso row c hr (hcs c (List.mem_cons_self _ _)) s hs)

theorem scanRows_inv (g : Grid) (w h : ℕ) (iso : ℚ) :
    ∀ (rs : List ℕ), (∀ x ∈ rs, x < h - 1) → ∀ s, ScanInv w h s →
      ScanInv w h (scanRows g w h iso rs s) := by
  intro rs
  induction rs with
  | nil => intro _ s hs; exact hs
  | cons r rs ih =>
      intro hrs s hs
      rw [scanRows]
      refine ih (fun x hx => hrs x (List.mem_cons_of_mem _ hx)) _ ?_
      exact scanCols_inv g w h iso r (hrs r (List.mem_cons_self _ _))
        (List.range (w - 1)) (fun x hx => List.mem_range.mp hx) s hs

/-- C1: no grid edge is traced twice across the full set of polylines of one
level.  First conjunct: across all traces of traceContoursAtLevel (in
particular across all returned polylines) the physical edges consumed as
exits are pairwise distinct, so no edge key is consumed by two different
output lines and no duplicate overlapping segment is produced.  Second
conjunct: every consumed exit is marked visited under its own cell's key and,
whenever the adjacent cell sharing the edge is in the traced range, under
that cell's equivalent key.  Third conjunct: the polylines returned by
traceContoursAtLevel are exactly the traced lines with at least two points. -/
theorem traceContoursAtLevel_no_edge_retraced (g : Grid) (w h : ℕ) (iso : ℚ) :
    (((traceContoursAtLevelAux g w h iso).traces.map Prod.snd).flatten.map canonEdge).Nodup ∧
      (∀ t ∈ (traceContoursAtLevelAux g w h iso).traces, ∀ e ∈ t.2,
          e ∈ (traceContoursAtLevelAux g w h iso).visited ∧
            ∀ m, mateKey w h e = some m →
              m ∈ (traceContoursAtLevelAux g w h iso).visited) ∧
      traceContoursAtLevel g w h iso =
        ((traceContoursAtLevelAux g w h iso).traces.map Prod.fst).filter
          (fun l => 2 ≤ l.length) := by
  have hinv : ScanInv w h (traceContoursAtLevelAux g w h iso) := by
    unfold traceContoursAtLevelAux
    refine scanRows_inv g w h iso (List.range (h - 1))
      (fun x hx => List.mem_range.mp hx) ⟨[], []⟩ ?_
    exact ⟨fun t ht => absurd ht (List.not_mem_nil t), by simp⟩
  exact ⟨hinv.2,
    fun t ht e he => ⟨(hinv.1 t ht e he).2.1, (hinv.1 t ht e he).2.2⟩, rfl⟩

/-- Concrete 3x3 grid with a single central peak of height 10. -/
def gPeak : Grid :=
  [[some 0, some 0, some 0], [some 0, some 10, some 0], [some 0, some 0, some 0]]

/-- Witness for C1: on the concrete peak grid at iso-value 5, a consumed exit
edge of the single traced loop is indeed marked in the final visited set. -/
theorem traceContoursAtLevel_no_edge_retraced_witness :
    ((EdgeSide.B, 0, 0) : EdgeKey) ∈ (traceContoursAtLevelAux gPeak 3 3 5).visited :=
  ((traceContoursAtLevel_no_edge_retraced gPeak 3 3 5).2.1
      ([((1 : ℚ)/2, 1), (1, (3 : ℚ)/2), ((3 : ℚ)/2, 1), (1, (1 : ℚ)/2), ((1 : ℚ)/2, 1)],
        [(EdgeSide.B, 0, 0), (EdgeSide.R, 1, 0), (EdgeSide.T, 1, 1), (EdgeSide.L, 0, 1)])
      (by with_unfolding_all decide) ((EdgeSide.B, 0, 0) : EdgeKey)
      (by with_unfolding_all decide)).1

/-! ### Endpoint merging (mergeLineEndpoints) -/

/-- First point of a polyline (line[0]). -/
def headP (l : Line) : Point := (l.head?).getD (0, 0)

/-- Last point of a polyline (line[line.length - 1]). -/
def lastP (l : Line) : Point := (l.getLast?).getD (0, 0)

/-- One merge attempt of the source's inner scan: the four endpoint-pair
distances d1 = distance(currentEnd, otherStart), d2 = (currentEnd, otherEnd),
d3 = (currentStart, otherStart), d4 = (currentStart, otherEnd); if their
minimum is within the threshold, the other line is consumed and concatenated
(reversed as needed), else nothing.  Distances are compared through squares,
exactly encoding the source's comparisons of Math.sqrt values. -/
def tryMerge (threshold : ℚ) (current other : Line) : Option Line :=
  let d1 := distanceSq (lastP current) (headP other)
  let d2 := distanceSq (lastP current) (lastP other)
  let d3 := distanceSq (headP current) (headP other)
  let d4 := distanceSq (headP current) (lastP other)
  let minDist := min (min (min d1 d2) d3) d4
  if sqrtLeB minDist threshold then
    some (if minDist = d1 then current ++ other.drop 1
      else if minDist = d2 then current ++ other.dropLast.reverse
      else if minDist = d3 then (other.drop 1).reverse ++ current
      else other.dropLast ++ current)
  else none

/-- The source's inner for-loop over j: the first unused line whose minimum
endpoint distance to the current line is within the threshold, together with
the new combined current line. -/
def findMerge (threshold : ℚ) (lines : List Line) (used : Finset ℕ) (current : Line) :
    Option (ℕ × Line) :=
  (List.range lines.length).findSome? fun j =>
    if j ∈ used then none
    else
      match tryMerge threshold current (lines.getD j []) with
      | some merged => some (j, merged)
      | none => none

/-- The source's while (foundMerge) loop.  Each successful merge consumes one
unused index, so the number of unused indices bounds the iterations; the fuel
passed by mergeLineEndpoints (the number of lines) always suffices. -/
def mergeLoop (threshold : ℚ) (lines : List Line) :
    ℕ → Line → Finset ℕ → Line × Finset ℕ
  | 0, current, used => (current, used)
  | fuel + 1, current, used =>
    match findMerge threshold lines used current with
    | none => (current, used)
    | some (j, merged) => mergeLoop threshold lines fuel merged (insert j used)

/-- The source's outer for-loop over i: skip used lines, otherwise grow a
copy of lines[i] by repeated merging and push the result. -/
def mergeOuter (threshold : ℚ) (lines : List Line) :
    List ℕ → List Line → Finset ℕ → List Line × Finset ℕ
  | [], acc, used => (acc, used)
  | i :: is, acc, used =>
    if i ∈ used then mergeOuter threshold lines is acc used
    else
      let r := mergeLoop threshold lines lines.length (lines.getD i []) (insert i used)
      mergeOuter threshold lines is (acc ++ [r.1]) r.2

/-- mergeLineEndpoints: lists of at most one line are returned as-is,
otherwise the greedy merge runs over all line indices in order. -/
def mergeLineEndpoints (lines : List Line) (threshold : ℚ) : List Line :=
  if lines.length ≤ 1 then lines
  else (mergeOuter threshold lines (List.range lines.length) [] ∅).1

/-- Two lines are separated when no merge between them qualifies: every one of
the four endpoint-pair distances exceeds the threshold. -/
def Sep (threshold : ℚ) (x y : Line) : Prop := tryMerge threshold x y = none

theorem sqrtLeB_of_le (s s' t : ℚ) (hss : s' ≤ s) (h : sqrtLeB s t = true) :
    sqrtLeB s' t = true := by
  simp only [sqrtLeB, Bool.and_eq_true, decide_eq_true_eq] at h ⊢
  exact ⟨h.1, le_trans hss h.2⟩

theorem min4_mem (d1 d2 d3 d4 : ℚ) :
    min (min (min d1 d2) d3) d4 = d1 ∨ min (min (min d1 d2) d3) d4 = d2 ∨
      min (min (min d1 d2) d3) d4 = d3 ∨ min (min (min d1 d2) d3) d4 = d4 := by
  rcases min_cases (min (min d1 d2) d3) d4 with ⟨h, _⟩ | ⟨h, _⟩
  · rcases min_cases (min d1 d2) d3 with ⟨h2, _⟩ | ⟨h2, _⟩
    · rcases min_cases d1 d2 with ⟨h3, _⟩ | ⟨h3, _⟩
      · exact Or.inl (by rw [h, h2, h3])
      · exact Or.inr (Or.inl (by rw [h, h2, h3]))
    · exact Or.inr (Or.inr (Or.inl (by rw [h, h2])))
  · exact Or.inr (Or.inr (Or.inr h))

theorem min4_le (d1 d2 d3 d4 : ℚ) :
    min (min (min d1 d2) d3) d4 ≤ d1 ∧ min (min (min d1 d2) d3) d4 ≤ d2 ∧
      min (min (min d1 d2) d3) d4 ≤ d3 ∧ min (min (min d1 d2) d3) d4 ≤ d4 := by
  refine ⟨?_, ?_, ?_, ?_⟩ <;>
    simp [min_le_iff, le_refl]

/-- Characterization of a failed merge attempt: it fails exactly when each of
the four endpoint-pair distances fails the threshold comparison. -/
theorem tryMerge_none_iff (t : ℚ) (x y : Line) :
    tryMerge t x y = none ↔
      (sqrtLeB (distanceSq (lastP x) (headP y)) t = false ∧
        sqrtLeB (distanceSq (lastP x) (lastP y)) t = false ∧
        sqrtLeB (distanceSq (headP x) (headP y)) t = false ∧
        sqrtLeB (distanceSq (headP x) (lastP y)) t = false) := by
  unfold tryMerge
  constructor
  · intro h
    set d1 := distanceSq (lastP x) (headP y)
    set d2 := distanceSq (lastP x) (lastP y)
    set d3 := distanceSq (headP x) (headP y)
    set d4 := distanceSq (headP x) (lastP y)
    by_cases hb : sqrtLeB (min (min (min d1 d2) d3) d4) t = true
    · rw [if_pos hb] at h
      exact absurd h (by simp)
    · have hb' := Bool.eq_false_iff.mpr (fun hh => hb hh)
      obtain ⟨g1, g2, g3, g4⟩ := min4_le d1 d2 d3 d4
      refine ⟨?_, ?_, ?_, ?_⟩ <;>
        · apply Bool.eq_false_iff.mpr
          intro hh
          exact hb (sqrtLeB_of_le _ _ _ (by assumption) hh)
  · intro ⟨h1, h2, h3, h4⟩
    set d1 := distanceSq (lastP x) (headP y)
    set d2 := distanceSq (lastP x) (lastP y)
    set d3 := distanceSq (headP x) (headP y)
    set d4 := distanceSq (headP x) (lastP y)
    have : sqrtLeB (min (min (min d1 d2) d3) d4) t = false := by
      rcases min4_mem d1 d2 d3 d4 with h | h | h | h <;> rw [h] <;> assumption
    rw [if_neg (by simp [this])]

theorem headP_append_left (l m : Line) (hl : l ≠ []) : headP (l ++ m) = headP l := by
  unfold headP
  rw [List.head?_append]
  cases l with
  | nil => exact absurd rfl hl
  | cons a l => rfl

theorem lastP_append (l m : Line) (hm : m ≠ []) : lastP (l ++ m) = lastP m := by
  unfold lastP
  rw [List.getLast?_append]
  cases hm' : m.getLast? with
  | none => exact absurd (List.getLast?_eq_none_iff.mp hm') hm
  | some a => rfl

theorem lastP_append_right_nil (l m : Line) (hm : m = []) : lastP (l ++ m) = lastP l := by
  subst hm
  rw [List.append_nil]

theorem headP_reverse (l : Line) : headP l.reverse = lastP l := by
  unfold headP lastP
  rw [List.head?_reverse]

theorem lastP_reverse (l : Line) : lastP l.reverse = headP l := by
  unfold headP lastP
  rw [List.getLast?_reverse]

theorem lastP_drop_one (l : Line) (h : l.drop 1 ≠ []) : lastP (l.drop 1) = lastP l := by
  cases l with
  | nil => simp at h
  | cons a l =>
      cases l with
      | nil => simp at h
      | cons b l =>
          unfold lastP
          simp [List.getLast?_cons_cons]

theorem headP_dropLast (l : Line) (h : l.dropLast ≠ []) : headP (l.dropLast) = headP l := by
  cases l with
  | nil => simp at h
  | cons a l =>
      cases l with
      | nil => simp at h
      | cons b l =>
          unfold headP
          rw [List.dropLast_cons₂]
          rfl

/-- Endpoint preservation: a successful merge of two nonempty lines is
nonempty and both its endpoints are endpoints of the two merged lines. -/
theorem tryMerge_endpoints (t : ℚ) (cur oth merged : Line)
    (hcur : cur ≠ []) (_hoth : oth ≠ [])
    (hm : tryMerge t cur oth = some merged) :
    merged ≠ [] ∧
      (headP merged = headP cur ∨ headP merged = lastP cur ∨
        headP merged = headP oth ∨ headP merged = lastP oth) ∧
      (lastP merged = headP cur ∨ lastP merged = lastP cur ∨
        lastP merged = headP oth ∨ lastP merged = lastP oth) := by
  unfold tryMerge at hm
  dsimp only at hm
  split at hm
  · have hm' := (Option.some.inj hm).symm
    split at hm'
    · subst hm'
      refine ⟨by simp [hcur], Or.inl (headP_append_left _ _ hcur), ?_⟩
      by_cases hd : oth.drop 1 = []
      · rw [lastP_append_right_nil _ _ hd]
        exact Or.inr (Or.inl rfl)
      · rw [lastP_append _ _ hd, lastP_drop_one _ hd]
        exact Or.inr (Or.inr (Or.inr rfl))
    · split at hm'
      · subst hm'
        refine ⟨by simp [hcur], Or.inl (headP_append_left _ _ hcur), ?_⟩
        by_cases hd : oth.dropLast.reverse = []
        · rw [lastP_append_right_nil _ _ hd]
          exact Or.inr (Or.inl rfl)
        · rw [lastP_append _ _ hd, lastP_reverse]
          rw [headP_dropLast _ (by simpa using hd)]
          exact Or.inr (Or.inr (Or.inl rfl))
      · split at hm'
        · subst hm'
          refine ⟨by simp [hcur], ?_, ?_⟩
          · by_cases hd : (oth.drop 1).reverse = []
            · rw [hd, List.nil_append]
              exact Or.inl rfl
            · rw [headP_append_left _ _ hd, headP_reverse,
                lastP_drop_one _ (by simpa using hd)]
              exact Or.inr (Or.inr (Or.inr rfl))
          · rw [lastP_append _ _ hcur]
            exact Or.inr (Or.inl rfl)
        · subst hm'
          refine ⟨by simp [hcur], ?_, ?_⟩
          · by_cases hd : oth.dropLast = []
            · rw [hd, List.nil_append]
              exact Or.inl rfl
            · rw [headP_append_left _ _ hd, headP_dropLast _ hd]
              exact Or.inr (Or.inr (Or.inl rfl))
          · rw [lastP_append _ _ hcur]
            exact Or.inr (Or.inl rfl)
  · exact absurd hm (by simp)

/-- Separation is preserved by merging: a line separated from both arguments
of a successful merge is separated from the result. -/
theorem sep_merge (t : ℚ) (m cur oth merged : Line)
    (hcur : cur ≠ []) (hoth : oth ≠ [])
    (hm : tryMerge t cur oth = some merged)
    (h1 : Sep t m cur) (h2 : Sep t m oth) : Sep t m merged := by
  rw [Sep, tryMerge_none_iff] at h1 h2 ⊢
  obtain ⟨hne, hh, hl⟩ := tryMerge_endpoints t cur oth merged hcur hoth hm
  have hcov : ∀ p, (p = headP cur ∨ p = lastP cur ∨ p = headP oth ∨ p = lastP oth) →
      sqrtLeB (distanceSq (lastP m) p) t = false ∧
        sqrtLeB (distanceSq (headP m) p) t = false := by
    intro p hp
    rcases hp with rfl | rfl | rfl | rfl
    · exact ⟨h1.1, h1.2.2.1⟩
    · exact ⟨h1.2.1, h1.2.2.2⟩
    · exact ⟨h2.1, h2.2.2.1⟩
    · exact ⟨h2.2.1, h2.2.2.2⟩
  exact ⟨(hcov _ hh).1, (hcov _ hl).1, (hcov _ hh).2, (hcov _ hl).2⟩

theorem findMerge_some (t : ℚ) (lines : List Line) (used : Finset ℕ) (current : Line)
    (j : ℕ) (merged : Line)
    (h : findMerge t lines used current = some (j, merged)) :
    j < lines.length ∧ j ∉ used ∧ tryMerge t current (lines.getD j []) = some merged := by
  unfold findMerge at h
  obtain ⟨a, ha, hfa⟩ := List.exists_of_findSome?_eq_some h
  by_cases hu : a ∈ used
  · rw [if_pos hu] at hfa
    exact absurd hfa (by simp)
  · rw [if_neg hu] at hfa
    cases htm : tryMerge t current (lines.getD a []) with
    | none => rw [htm] at hfa; exact absurd hfa (by simp)
    | some m =>
        rw [htm] at hfa
        obtain ⟨rfl, rfl⟩ := Prod.mk.injEq .. ▸ (Option.some.inj hfa)
        exact ⟨List.mem_range.mp ha, hu, htm⟩

theorem findMerge_none (t : ℚ) (lines : List Line) (used : Finset ℕ) (current : Line)
    (h : findMerge t lines used current = none) :
    ∀ j, j < lines.length → j ∉ used → tryMerge t current (lines.getD j []) = none := by
  unfold findMerge at h
  rw [List.findSome?_eq_none_iff] at h
  intro j hj hu
  have := h j (List.mem_range.mpr hj)
  rw [if_neg hu] at this
  cases htm : tryMerge t current (lines.getD j []) with
  | none => rfl
  | some m => rw [htm] at this; exact absurd this (by simp)

theorem findMerge_none_of (t : ℚ) (lines : List Line) (used : Finset ℕ) (current : Line)
    (h : ∀ j, j < lines.length → j ∉ used → tryMerge t current (lines.getD j []) = none) :
    findMerge t lines used current = none := by
  unfold findMerge
  rw [List.findSome?_eq_none_iff]
  intro j hj
  by_cases hu : j ∈ used
  · rw [if_pos hu]
  · rw [if_neg hu, h j (List.mem_range.mp hj) hu]

theorem mergeLoop_of_findMerge_none (t : ℚ) (lines : List Line) (fuel : ℕ)
    (current : Line) (used : Finset ℕ)
    (h : findMerge t lines used current = none) :
    mergeLoop t lines fuel current used = (current, used) := by
  cases fuel with
  | zero => rfl
  | succ n => rw [mergeLoop, h]

theorem getD_mem_of_lt (lines : List Line) (j : ℕ) (hj : j < lines.length) :
    lines.getD j [] ∈ lines := by
  rw [List.getD_eq_getElem?_getD, List.getElem?_eq_getElem hj]
  exact List.getElem_mem hj

/-- Master invariant of the while (foundMerge) loop: with enough fuel (the
number of still-unused lines), the loop preserves nonemptiness and separation
from previously emitted lines, and terminates in a state where no remaining
unused line is mergeable with the final current line. -/
theorem mergeLoop_spec (t : ℚ) (lines : List Line) (ms : List Line)
    (hl : ∀ l ∈ lines, l ≠ []) :
    ∀ (fuel : ℕ) (current : Line) (used : Finset ℕ),
      (Finset.range lines.length \ used).card ≤ fuel →
      current ≠ [] →
      (∀ m ∈ ms, (∀ k, k < lines.length → k ∉ used → Sep t m (lines.getD k [])) ∧
        Sep t m current) →
      used ⊆ (mergeLoop t lines fuel current used).2 ∧
      (mergeLoop t lines fuel current used).1 ≠ [] ∧
      (∀ m ∈ ms,
        (∀ k, k < lines.length → k ∉ (mergeLoop t lines fuel current used).2 →
          Sep t m (lines.getD k [])) ∧
        Sep t m (mergeLoop t lines fuel current used).1) ∧
      (∀ k, k < lines.length → k ∉ (mergeLoop t lines fuel current used).2 →
        tryMerge t (mergeLoop t lines fuel current used).1 (lines.getD k []) = none) := by
  intro fuel
  induction fuel with
  | zero =>
      intro current used hfuel hcur hms
      have hall : ∀ k, k < lines.length → k ∈ used := by
        intro k hk
        by_contra hku
        have : k ∈ Finset.range lines.length \ used :=
          Finset.mem_sdiff.mpr ⟨Finset.mem_range.mpr hk, hku⟩
        have := Finset.card_pos.mpr ⟨k, this⟩
        omega
      refine ⟨Finset.Subset.refl _, hcur, ?_, ?_⟩
      · intro m hm
        exact ⟨fun k hk hku => absurd (hall k hk) hku, (hms m hm).2⟩
      · intro k hk hku
        exact absurd (hall k hk) hku
  | succ n ih =>
      intro current used hfuel hcur hms
      cases hfm : findMerge t lines used current with
      | none =>
          rw [mergeLoop, hfm]
          refine ⟨Finset.Subset.refl _, hcur, ?_, ?_⟩
          · intro m hm
            exact hms m hm
          · exact findMerge_none t lines used current hfm
      | some jm =>
          obtain ⟨j, merged⟩ := jm
          obtain ⟨hjlt, hju, htm⟩ := findMerge_some t lines used current j merged hfm
          rw [mergeLoop, hfm]
          have hoth_ne : lines.getD j [] ≠ [] := hl _ (getD_mem_of_lt lines j hjlt)
          have hmer_ne : merged ≠ [] :=
            (tryMerge_endpoints t current (lines.getD j []) merged hcur hoth_ne htm).1
          have hfuel' : (Finset.range lines.length \ insert j used).card ≤ n := by
            have hsub : Finset.range lines.length \ insert j used =
                (Finset.range lines.length \ used).erase j := by
              ext x
              simp only [Finset.mem_sdiff, Finset.mem_insert, Finset.mem_erase,
                Finset.mem_range]
              tauto
            have hjmem : j ∈ Finset.range lines.length \ used :=
              Finset.mem_sdiff.mpr ⟨Finset.mem_range.mpr hjlt, hju⟩
            rw [hsub]
            have := Finset.card_erase_of_mem hjmem
            omega
          have hms' : ∀ m ∈ ms,
              (∀ k, k < lines.length → k ∉ insert j used → Sep t m (lines.getD k [])) ∧
                Sep t m merged := by
            intro m hm
            obtain ⟨hq, hs⟩ := hms m hm
            refine ⟨fun k hk hku => hq k hk (fun hx => hku (Finset.mem_insert_of_mem hx)), ?_⟩
            exact sep_merge t m current (lines.getD j []) merged hcur hoth_ne htm hs
              (hq j hjlt hju)
          obtain ⟨ih1, ih2, ih3, ih4⟩ := ih merged (insert j used) hfuel' hmer_ne hms'
          exact ⟨Finset.Subset.trans (Finset.subset_insert j used) ih1, ih2, ih3, ih4⟩

/-- Invariant of the outer loop: all emitted lines are nonempty, separated
from every still-unused input line, and pairwise separated in emission
order. -/
theorem mergeOuter_spec (t : ℚ) (lines : List Line) (hl : ∀ l ∈ lines, l ≠ []) :
    ∀ (is : List ℕ) (acc : List Line) (used : Finset ℕ),
      (∀ i ∈ is, i < lines.length) →
      (∀ m ∈ acc, m ≠ [] ∧
        ∀ k, k < lines.length → k ∉ used → Sep t m (lines.getD k [])) →
      List.Pairwise (Sep t) acc →
      (∀ m ∈ (mergeOuter t lines is acc used).1, m ≠ []) ∧
      List.Pairwise (Sep t) (mergeOuter t lines is acc used).1 := by
  intro is
  induction is with
  | nil =>
      intro acc used his hacc hpw
      exact ⟨fun m hm => (hacc m hm).1, hpw⟩
  | cons i is ih =>
      intro acc used his hacc hpw
      by_cases hiu : i ∈ used
      · rw [mergeOuter, if_pos hiu]
        exact ih acc used (fun x hx => his x (List.mem_cons_of_mem _ hx)) hacc hpw
      · rw [mergeOuter, if_neg hiu]
        have hilt : i < lines.length := his i (List.mem_cons_self _ _)
        have hcur_ne : lines.getD i [] ≠ [] := hl _ (getD_mem_of_lt lines i hilt)
        have hfuel : (Finset.range lines.length \ insert i used).card ≤ lines.length := by
          have h1 : (Finset.range lines.length \ insert i used).card ≤
              (Finset.range lines.length).card :=
            Finset.card_le_card (Finset.sdiff_subset)
          rw [Finset.card_range] at h1
          exact h1
        have hms : ∀ m ∈ acc,
            (∀ k, k < lines.length → k ∉ insert i used → Sep t m (lines.getD k [])) ∧
              Sep t m (lines.getD i []) := by
          intro m hm
          obtain ⟨hmne, hq⟩ := hacc m hm
          exact ⟨fun k hk hku => hq k hk (fun hx => hku (Finset.mem_insert_of_mem hx)),
            hq i hilt hiu⟩
        obtain ⟨l1, l2, l3, l4⟩ := mergeLoop_spec t lines acc hl lines.length
          (lines.getD i []) (insert i used) hfuel hcur_ne hms
        apply ih
        · exact fun x hx => his x (List.mem_cons_of_mem _ hx)
        · intro m hm
          rcases List.mem_append.mp hm with hml | hmr
          · obtain ⟨hmne, _⟩ := hacc m hml
            exact ⟨hmne, (l3 m hml).1⟩
          · have : m = (mergeLoop t lines lines.length (lines.getD i [])
                (insert i used)).1 := by simpa using hmr
            subst this
            exact ⟨l2, l4⟩
        · rw [List.pairwise_append]
          refine ⟨hpw, List.pairwise_singleton _ _, ?_⟩
          intro a ha b hb
          have : b = (mergeLoop t lines lines.length (lines.getD i [])
              (insert i used)).1 := by simpa using hb
          subst this
          exact (l3 a ha).2

/-- The output of mergeLineEndpoints on nonempty lines consists of nonempty
lines that are pairwise unmergeable at the same threshold. -/
theorem mergeLineEndpoints_sep (lines : List Line) (t : ℚ)
    (hl : ∀ l ∈ lines, l ≠ []) :
    (∀ m ∈ mergeLineEndpoints lines t, m ≠ []) ∧
      List.Pairwise (Sep t) (mergeLineEndpoints lines t) := by
  unfold mergeLineEndpoints
  split
  · rename_i hlen
    refine ⟨hl, ?_⟩
    cases lines with
    | nil => exact List.Pairwise.nil
    | cons a as =>
        cases as with
        | nil => exact List.pairwise_singleton _ _
        | cons b bs => simp at hlen
  · exact mergeOuter_spec t lines hl (List.range lines.length) [] ∅
      (fun x hx => List.mem_range.mp hx)
      (fun m hm => absurd hm (List.not_mem_nil m)) List.Pairwise.nil

theorem getD_eq_getElem_of_lt (lines : List Line) (j : ℕ) (hj : j < lines.length) :
    lines.getD j [] = lines[j] := by
  rw [List.getD_eq_getElem?_getD, List.getElem?_eq_getElem hj]
  rfl

/-- On a pairwise-separated input the greedy merge never finds a qualifying
pair, so each loop round just copies the next line. -/
theorem mergeOuter_id (t : ℚ) (ms : List Line) (hsep : List.Pairwise (Sep t) ms) :
    ∀ (k i : ℕ), i + k = ms.length →
      mergeOuter t ms (List.range' i k) (ms.take i) (Finset.range i) =
        (ms, Finset.range ms.length) := by
  intro k
  induction k with
  | zero =>
      intro i hik
      have hi : i = ms.length := by omega
      subst hi
      rw [show List.range' ms.length 0 = [] from rfl, mergeOuter, List.take_length]
  | succ n ih =>
      intro i hik
      have hilt : i < ms.length := by omega
      rw [List.range'_succ, mergeOuter, if_neg Finset.not_mem_range_self]
      dsimp only
      have hfm : findMerge t ms (insert i (Finset.range i)) (ms.getD i []) = none := by
        apply findMerge_none_of
        intro j hj hju
        have hij : i < j := by
          rcases Nat.lt_trichotomy i j with h | h | h
          · exact h
          · exact absurd (h ▸ Finset.mem_insert_self i (Finset.range i)) hju
          · exact absurd (Finset.mem_insert_of_mem (Finset.mem_range.mpr h)) hju
        have hpw := (List.pairwise_iff_getElem.mp hsep) i j hilt hj hij
        rw [getD_eq_getElem_of_lt ms i hilt, getD_eq_getElem_of_lt ms j hj]
        exact hpw
      rw [mergeLoop_of_findMerge_none _ _ _ _ _ hfm]
      have hins : insert i (Finset.range i) = Finset.range (i + 1) :=
        (Finset.range_succ).symm
      have htake : ms.take i ++ [ms.getD i []] = ms.take (i + 1) := by
        rw [List.take_succ, List.getElem?_eq_getElem hilt]
        rw [getD_eq_getElem_of_lt ms i hilt]
        rfl
      rw [hins, htake]
      exact ih (i + 1) (by omega)

/-- Merging a pairwise-separated list is the identity. -/
theorem merge_of_separated (t : ℚ) (ms : List Line)
    (hsep : List.Pairwise (Sep t) ms) :
    mergeLineEndpoints ms t = ms := by
  unfold mergeLineEndpoints
  split
  · rfl
  · have h0 := mergeOuter_id t ms hsep ms.length 0 (by omega)
    rw [List.range_eq_range']
    simpa using congrArg Prod.fst h0

/-- C4: endpoint merging is idempotent.  For every list of nonempty polylines
and every threshold, running mergeLineEndpoints twice gives the same result
point-for-point as running it once: the first run leaves no pair of output
lines whose endpoints are within the threshold, so the second run copies its
input unchanged. -/
theorem mergeLineEndpoints_idempotent (lines : List Line) (t : ℚ)
    (hne : ∀ l ∈ lines, l ≠ []) :
    mergeLineEndpoints (mergeLineEndpoints lines t) t = mergeLineEndpoints lines t :=
  merge_of_separated t _ (mergeLineEndpoints_sep lines t hne).2

/-- Witness for C4 at a concrete pair of lines (one mergeable pair plus an
isolated line). -/
theorem mergeLineEndpoints_idempotent_witness :
    mergeLineEndpoints (mergeLineEndpoints
        [[((0 : ℚ), (0 : ℚ)), (1, 0)], [((6 : ℚ)/5, (0 : ℚ)), (2, 0)],
          [((9 : ℚ), (0 : ℚ)), (8, 0)]] (3/2)) (3/2) =
      mergeLineEndpoints
        [[((0 : ℚ), (0 : ℚ)), (1, 0)], [((6 : ℚ)/5, (0 : ℚ)), (2, 0)],
          [((9 : ℚ), (0 : ℚ)), (8, 0)]] (3/2) :=
  mergeLineEndpoints_idempotent _ (3/2) (by with_unfolding_all decide)

/-! ### Douglas-Peucker simplification and Chaikin smoothing -/

/-- perpendicularDistance of the source, kept squared: the distance from a
point to its clamped projection onto the chord, or to the chord start when
the chord is degenerate (lenSq = 0). -/
def perpDistSq (p a b : Point) : ℚ :=
  let dx := b.1 - a.1
  let dy := b.2 - a.2
  let lenSq := dx * dx + dy * dy
  if lenSq = 0 then distanceSq p a
  else
    let tt := max 0 (min 1 (((p.1 - a.1) * dx + (p.2 - a.2) * dy) / lenSq))
    distanceSq p (a.1 + tt * dx, a.2 + tt * dy)

/-- The source's scan for the interior point of maximum perpendicular
distance from the chord points[0] - points[end]: returns
(maxDist squared, maxIndex), starting from (0, 0), improving strictly. -/
def dpScan (points : List Point) : ℚ × ℕ :=
  ((List.range (points.length - 1)).drop 1).foldl
    (fun acc i =>
      let d := perpDistSq (points.getD i (0, 0)) (points.getD 0 (0, 0))
        (points.getD (points.length - 1) (0, 0))
      if acc.1 < d then (d, i) else acc)
    (0, 0)

/-- The recursion of simplifyDouglasPeucker on an explicit depth budget.
For a nonnegative tolerance every recursive call strictly shortens the list
(maxDist > tolerance >= 0 forces maxIndex >= 1), so the budget points.length
passed by simplifyDouglasPeucker always suffices; with a negative tolerance
the JavaScript recursion can diverge (maxIndex 0 recurses on the whole list
and overflows the stack), which the budget cuts off instead. -/
def simplifyDP (tol : ℚ) : ℕ → List Point → List Point
  | 0, points => points
  | fuel + 1, points =>
    if points.length ≤ 2 then points
    else
      let s := dpScan points
      if sqrtGtB s.1 tol then
        let left := simplifyDP tol fuel (points.take (s.2 + 1))
        let right := simplifyDP tol fuel (points.drop s.2)
        left.dropLast ++ right
      else [points.headD (0, 0), points.getLastD (0, 0)]

/-- simplifyDouglasPeucker: keep points of maximum deviation above the
tolerance, else collapse to the two endpoints. -/
def simplifyDouglasPeucker (points : List Point) (tol : ℚ) : List Point :=
  simplifyDP tol points.length points

/-- One Chaikin pass over the consecutive pairs (p0, p1): two new points at
the 1/4 and 3/4 interpolation positions. -/
def chaikinPairs : List Point → List Point
  | p0 :: p1 :: rest =>
      (p0.1 * (3/4) + p1.1 * (1/4), p0.2 * (3/4) + p1.2 * (1/4)) ::
        (p0.1 * (1/4) + p1.1 * (3/4), p0.2 * (1/4) + p1.2 * (3/4)) ::
          chaikinPairs (p1 :: rest)
  | _ => []

/-- One full corner-cutting pass: first point kept, the interpolated pairs,
last point kept. -/
def chaikinPass (l : List Point) : List Point :=
  l.headD (0, 0) :: (chaikinPairs l ++ [l.getLastD (0, 0)])

/-- The inner iterations loop of smoothChaikin. -/
def chaikinIters : ℕ → List Point → List Point
  | 0, l => l
  | n + 1, l => chaikinIters n (chaikinPass l)

/-- smoothChaikin(points, iterations): fewer than 3 points pass through
unchanged, otherwise the pass is applied iterations times. -/
def smoothChaikin (points : List Point) (iterations : ℕ) : List Point :=
  if points.length < 3 then points else chaikinIters iterations points

/-- The pipeline's smoothing loop: smoothIterations successive calls of
smoothChaikin(line) (each call uses the default iterations = 1). -/
def applySmoothing : ℕ → List Point → List Point
  | 0, l => l
  | n + 1, l => applySmoothing n (smoothChaikin l 1)

/-! ### generateContours -/

/-- The configuration bundle of generateContours.  simplifyTolerance is the
optional override; none models the absent / null argument. -/
structure ContourParams where
  grid : Grid
  width : ℕ
  height : ℕ
  boundsMinX : ℚ
  boundsMinY : ℚ
  cellSize : ℚ
  interval : ℚ
  majorInterval : ℚ
  blurPasses : ℕ
  simplifyTolerance : Option ℚ
  smoothIterations : ℕ

/-- One output GeoJSON feature: a traced line with its elevation tag. -/
structure ContourFeature where
  elevation : ℚ
  isMajor : Bool
  pointCount : ℕ
  coordinates : List Point
deriving DecidableEq, Repr

/-- The feature collection returned by generateContours (processingTimeMs,
being wall-clock, is not modelled). -/
structure ContourOutput where
  features : List ContourFeature
  totalLines : ℕ
  elevationRange : ℚ × ℚ
  intervalOut : ℚ
  majorIntervalOut : ℚ
deriving DecidableEq, Repr

/-- The valid samples of the processed grid in row-major scan order (step 2
of generateContours); minZ / maxZ exist iff this list is nonempty. -/
def validValues (g : Grid) (w h : ℕ) : List ℚ :=
  ((List.range h).map fun r => (List.range w).filterMap fun c => gridGet g r c).flatten

/-- Step 3 of generateContours, modelling the loop
"for (elev = minLevel; elev <= maxLevel; elev += interval)" on exact numbers.
With a positive interval it yields the closed arithmetic range from
floor(minZ/interval)*interval to ceil(maxZ/interval)*interval.  With
interval = 0 both loop bounds are NaN in JavaScript (Math.floor of a division
by zero scaled by 0), so the loop never runs.  With a negative interval the
loop either never runs (when minLevel > maxLevel) or never terminates
(elev only decreases while staying below maxLevel), modelled as none. -/
def jsLevels (minZ maxZ interval : ℚ) : Option (List ℚ) :=
  if 0 < interval then
    some ((List.range (⌈maxZ / interval⌉ - ⌊minZ / interval⌋ + 1).toNat).map
      fun j => (⌊minZ / interval⌋ : ℚ) * interval + (j : ℚ) * interval)
  else if interval = 0 then some []
  else
    if (⌊minZ / interval⌋ : ℚ) * interval ≤ (⌈maxZ / interval⌉ : ℚ) * interval
    then none else some []

/-- isMajor: "(elevation % majorInterval) === 0".  The JavaScript remainder
with modulus 0 is NaN (never equal to 0); otherwise it vanishes iff the
modulus divides the elevation exactly. -/
def isMajorOf (elev majorInterval : ℚ) : Bool :=
  if majorInterval = 0 then false else decide ((elev / majorInterval).den = 1)

/-- Per-level processing of generateContours: trace the level, map to world
coordinates, merge endpoints at threshold cellSize * 1.5, simplify at
tolerance simplifyTolerance falling back to cellSize * 0.3 when absent or
falsy (0), keep lines of at least 2 points, smooth, and emit features for the
lines that still have at least 2 points. -/
def levelFeatures (g : Grid) (p : ContourParams) (elev : ℚ) : List ContourFeature :=
  let lines := traceContoursAtLevel g p.width p.height elev
  if lines.isEmpty then []
  else
    let worldLines := lines.map fun line =>
      line.map fun q => (p.boundsMinX + q.1 * p.cellSize, p.boundsMinY + q.2 * p.cellSize)
    let mergedLines := mergeLineEndpoints worldLines (p.cellSize * (3/2))
    let tol := match p.simplifyTolerance with
      | some tv => if tv = 0 then p.cellSize * (3/10) else tv
      | none => p.cellSize * (3/10)
    let simplifiedLines := (mergedLines.map fun line =>
      simplifyDouglasPeucker line tol).filter fun line => 2 ≤ line.length
    let smoothedLines := if 0 < p.smoothIterations then
        simplifiedLines.map (applySmoothing p.smoothIterations)
      else simplifiedLines
    (smoothedLines.filter fun line => 2 ≤ line.length).map fun line =>
      { elevation := elev, isMajor := isMajorOf elev p.majorInterval,
        pointCount := line.length, coordinates := line }

/-- generateContours.  The result is some (Except.error ...) on the
EmptyGridError path ("No valid elevation data in grid", thrown before any
level is generated or traced), some (Except.ok ...) on a normal run, and
none when the level loop diverges (negative interval - the JavaScript never
returns). -/
def generateContours (p : ContourParams) : Option (Except String ContourOutput) :=
  let processed := applyBlurPasses p.width p.height p.blurPasses p.grid
  match validValues processed p.width p.height with
  | [] => some (Except.error "No valid elevation data in grid")
  | v :: vs =>
      let minZ := vs.foldl min v
      let maxZ := vs.foldl max v
      match jsLevels minZ maxZ p.interval with
      | none => none
      | some levels =>
          let feats := (levels.map (levelFeatures processed p)).flatten
          some (Except.ok
            { features := feats
              totalLines := feats.length
              elevationRange := (minZ, maxZ)
              intervalOut := p.interval
              majorIntervalOut := p.majorInterval })

/-- C3: generateContours fails with the EmptyGridError
"No valid elevation data in grid" if and only if the processed (blurred)
grid has no valid cell; the failure is the whole result (no partial feature
collection accompanies it, the error being raised before levels are planned
or any tracing begins). -/
theorem validValues_eq_nil_iff (g : Grid) (w h : ℕ) :
    validValues g w h = [] ↔ ∀ r, r < h → ∀ c, c < w → gridGet g r c = none := by
  unfold validValues
  rw [List.flatten_eq_nil_iff]
  constructor
  · intro hyp r hr c hc
    have hrow := hyp _ (List.mem_map_of_mem _ (List.mem_range.mpr hr))
    rw [List.filterMap_eq_nil_iff] at hrow
    exact hrow c (List.mem_range.mpr hc)
  · intro hyp l hl
    rw [List.mem_map] at hl
    obtain ⟨r, hr, rfl⟩ := hl
    rw [List.filterMap_eq_nil_iff]
    intro c hc
    exact hyp r (List.mem_range.mp hr) c (List.mem_range.mp hc)

theorem generateContours_emptyGrid_iff (p : ContourParams) :
    generateContours p = some (Except.error "No valid elevation data in grid") ↔
      ∀ r, r < p.height → ∀ c, c < p.width →
        gridGet (applyBlurPasses p.width p.height p.blurPasses p.grid) r c = none := by
  rw [← validValues_eq_nil_iff (applyBlurPasses p.width p.height p.blurPasses p.grid)
    p.width p.height]
  unfold generateContours
  dsimp only
  cases hvv : validValues (applyBlurPasses p.width p.height p.blurPasses p.grid)
      p.width p.height with
  | nil => simp [hvv]
  | cons v vs =>
      simp only [hvv]
      constructor
      · intro h
        exfalso
        cases hjl : jsLevels (vs.foldl min v) (vs.foldl max v) p.interval with
        | none => rw [hjl] at h; exact absurd h (by simp)
        | some levels => rw [hjl] at h; simp at h
      · intro h
        simp at h

/-- Witness for C3 on a concrete all-null grid: the run aborts with the
EmptyGridError and nothing else. -/
theorem generateContours_emptyGrid_iff_witness :
    generateContours ⟨[[none]], 1, 1, 0, 0, 1, 5, 25, 0, none, 2⟩ =
      some (Except.error "No valid elevation data in grid") :=
  (generateContours_emptyGrid_iff ⟨[[none]], 1, 1, 0, 0, 1, 5, 25, 0, none, 2⟩).mpr
    (by
      intro r hr c hc
      have hr0 : r = 0 := Nat.lt_one_iff.mp hr
      have hc0 : c = 0 := Nat.lt_one_iff.mp hc
      subst hr0; subst hc0
      rfl)

/-- Concrete configuration with interval = 0 (non-positive) and a valid
one-sample grid. -/
def pZeroInterval : ContourParams := ⟨[[some 0]], 1, 1, 0, 0, 1, 0, 25, 0, none, 2⟩

/-- Counterexample to C6: with the non-positive interval 0 the pipeline does
not raise any error (there is no InvalidConfigurationError anywhere in the
worker): generateContours returns successfully with an empty feature
collection, because the NaN level bounds make the level loop run zero
times. -/
theorem no_invalid_configuration_error_cex :
    pZeroInterval.interval ≤ 0 ∧
      generateContours pZeroInterval =
        some (Except.ok
          { features := []
            totalLines := 0
            elevationRange := (0, 0)
            intervalOut := 0
            majorIntervalOut := 25 }) :=
  ⟨by with_unfolding_all decide, by with_unfolding_all rfl⟩

/-- C6 amended: the pipeline performs no configuration validation.  When the
configured interval is 0 and the processed grid still has a valid sample,
generateContours does not raise an error at all: it returns Except.ok with an
empty list of features (zero contour levels are generated). -/
theorem generateContours_zero_interval_no_error (p : ContourParams)
    (hI : p.interval = 0)
    (hvalid : ∃ r, r < p.height ∧ ∃ c, c < p.width ∧
      gridGet (applyBlurPasses p.width p.height p.blurPasses p.grid) r c ≠ none) :
    ∃ out, generateContours p = some (Except.ok out) ∧ out.features = [] := by
  unfold generateContours
  dsimp only
  cases hvv : validValues (applyBlurPasses p.width p.height p.blurPasses p.grid)
      p.width p.height with
  | nil =>
      exfalso
      obtain ⟨r, hr, c, hc, hne⟩ := hvalid
      exact hne (((validValues_eq_nil_iff _ _ _).mp hvv) r hr c hc)
  | cons v vs =>
      dsimp only
      have hjl : jsLevels (vs.foldl min v) (vs.foldl max v) p.interval = some [] := by
        rw [hI]
        unfold jsLevels
        norm_num
      rw [hjl]
      exact ⟨_, rfl, rfl⟩

/-- Witness for the amended C6 at the concrete configuration. -/
theorem generateContours_zero_interval_no_error_witness :
    ∃ out, generateContours pZeroInterval = some (Except.ok out) ∧ out.features = [] :=
  generateContours_zero_interval_no_error pZeroInterval (by with_unfolding_all decide)
    ⟨0, by decide, 0, by decide, by with_unfolding_all decide⟩

/-- Checks whether a polyline contains two consecutive identical points. -/
def hasConsecutiveDup : List Point → Bool
  | p :: q :: rest => decide (p = q) || hasConsecutiveDup (q :: rest)
  | _ => false

/-- Concrete configuration: 3x3 grid with a central peak of 100, interval 85,
no blur, default tolerance and smoothing. -/
def pPeak : ContourParams :=
  ⟨[[some 0, some 0, some 0], [some 0, some 100, some 0], [some 0, some 0, some 0]],
    3, 3, 0, 0, 1, 85, 25, 0, none, 2⟩

/-- Counterexample to C7: on pPeak the run succeeds and its single returned
line is [(17/20, 1), (17/20, 1)] - two points, identical and consecutive.
(The traced loop at level 85 is a tiny closed pentagon whose maximum
deviation from its degenerate first-last chord is exactly the tolerance
0.3, so Douglas-Peucker collapses it to its two equal endpoints, which the
2-point filters keep and 2-point Chaikin leaves unchanged.) -/
theorem generateContours_consecutive_dup_cex :
    generateContours pPeak = some (Except.ok
      { features := [ContourFeature.mk 85 false 2
          [((17 : ℚ)/20, 1), ((17 : ℚ)/20, 1)]]
        totalLines := 1
        elevationRange := (0, 100)
        intervalOut := 85
        majorIntervalOut := 25 }) ∧
      hasConsecutiveDup [((17 : ℚ)/20, 1), ((17 : ℚ)/20, 1)] = true :=
  ⟨by with_unfolding_all rfl, by with_unfolding_all rfl⟩

theorem levelFeatures_length_ge_two (g : Grid) (p : ContourParams) (elev : ℚ) :
    ∀ f ∈ levelFeatures g p elev, 2 ≤ f.coordinates.length := by
  intro f hf
  unfold levelFeatures at hf
  repeat ((try dsimp only at hf); split at hf)
  all_goals
    first
      | exact absurd hf (List.not_mem_nil f)
      | (rw [List.mem_map] at hf
         obtain ⟨line, hline, rfl⟩ := hf
         rw [List.mem_filter] at hline
         simpa using hline.2)

/-- C7 amended: every line in the feature collection returned by
generateContours has at least 2 points (the emission loop skips shorter
lines); the original claim's second half fails - a returned line can contain
two consecutive identical points, see the counterexample. -/
theorem generateContours_lines_length_ge_two (p : ContourParams)
    (out : ContourOutput) (h : generateContours p = some (Except.ok out)) :
    ∀ f ∈ out.features, 2 ≤ f.coordinates.length := by
  unfold generateContours at h
  dsimp only at h
  split at h
  · simp at h
  · split at h
    · exact absurd h (by simp)
    · have h2 := Except.ok.inj (Option.some.inj h)
      intro f hf
      rw [← h2] at hf
      dsimp only at hf
      rw [List.mem_flatten] at hf
      obtain ⟨l, hl, hfl⟩ := hf
      rw [List.mem_map] at hl
      obtain ⟨elev, _, rfl⟩ := hl
      exact levelFeatures_length_ge_two _ p elev f hfl

/-- Witness for the amended C7 at the concrete peak configuration. -/
theorem generateContours_lines_length_ge_two_witness :
    2 ≤ (ContourFeature.mk 85 false 2
      [((17 : ℚ)/20, 1), ((17 : ℚ)/20, 1)]).coordinates.length :=
  generateContours_lines_length_ge_two pPeak
    { features := [ContourFeature.mk 85 false 2
        [((17 : ℚ)/20, 1), ((17 : ℚ)/20, 1)]]
      totalLines := 1
      elevationRange := (0, 100)
      intervalOut := 85
      majorIntervalOut := 25 }
    (by with_unfolding_all rfl)
    (ContourFeature.mk 85 false 2 [((17 : ℚ)/20, 1), ((17 : ℚ)/20, 1)])
    (List.mem_singleton.mpr rfl)

end GspContour
